import Mathlib

/-!
Verification of the favorites demo's core: the command-pattern undo/redo
manager (`createCommandManager`), the state store (`createStateStore`), the
action factories (`createAddFavoriteAction`, `createRemoveFavoriteAction`,
`createClearAllAction`, `createBulkAddAction`), the observer manager
(`createObserverManager`) and the orchestrating facade
(`createFavoritesStore`), shallowly embedded from the JavaScript source.

JavaScript sets are modelled as insertion-ordered lists of distinct strings;
thrown exceptions are modelled by an explicit `thrown` outcome; the dynamic
values a command's `execute()` may return are modelled by `JsVal`, keeping
the distinction between strict `false` and other falsy values that the
manager's `result !== false` test depends on.
-/

/-- A JavaScript value as far as the command manager inspects it:
`executeAction` only tests `result !== false`, so we keep the boolean,
`undefined`, `null`, numbers, strings, and `Set` objects apart. -/
inductive JsVal where
  | vBool (b : Bool)
  | vUndefined
  | vNull
  | vNum (n : Int)
  | vStr (s : String)
  | vSet (l : List String)
deriving DecidableEq, Repr

/-- The strict comparison `result !== false` used by `executeAction`:
only the boolean value `false` itself passes `=== false`. -/
def JsVal.isStrictFalse : JsVal → Bool
  | JsVal.vBool false => true
  | _ => false

/-- Outcome of running a JavaScript function: a returned value or a
thrown exception. -/
inductive JsRes where
  | ok (v : JsVal)
  | thrown
deriving DecidableEq, Repr

/-- The favorites `Set` of `createStateStore`: an insertion-ordered list of
distinct URL strings. -/
abbrev Store := List String

/-- Embeds `state-store.js` `has`: `favorites.has(url)`. -/
def Store.has (s : Store) (url : String) : Bool :=
  List.contains s url

/-- Embeds `state-store.js` `add`: throws when the url is empty (the
`!url?.length` guard), otherwise inserts at the end when absent and
reports whether it was newly added. `none` models the throw. -/
def Store.add (s : Store) (url : String) : Option (Store × Bool) :=
  if url = "" then none
  else
    let wasAdded := !(Store.has s url)
    some (if wasAdded then s ++ [url] else s, wasAdded)

/-- Embeds `state-store.js` `remove`: throws on an empty url, otherwise
`favorites.delete(url)` which reports whether the url was present. -/
def Store.remove (s : Store) (url : String) : Option (Store × Bool) :=
  if url = "" then none
  else some (List.filter (fun x => x != url) s, Store.has s url)

/-- Embeds `state-store.js` `getAll`: a fresh copy of the set. -/
def Store.getAll (s : Store) : List String := s

/-- Embeds `state-store.js` `getCount`. -/
def Store.getCount (s : Store) : Nat := s.length

/-- Embeds `state-store.js` `clear`: empties the set and returns the previous
contents. -/
def Store.clear (s : Store) : Store × List String :=
  (([] : List String), s)

/-- Embeds `favorites.clear()` followed by `snapshot.forEach(url =>
favorites.add(url))`: rebuild the set from the snapshot in order,
skipping duplicates as `Set.add` does. -/
def Store.dedupAppend (acc : Store) : List String → Store
  | [] => acc
  | u :: rest =>
      Store.dedupAppend (if Store.has acc u then acc else acc ++ [u]) rest

/-- Embeds `state-store.js` `restore`: replaces the contents with the snapshot
(the snapshot is type-checked to be a `Set` in the source; the model's
type enforces that). -/
def Store.restore (_s : Store) (snapshot : List String) : Store :=
  Store.dedupAppend [] snapshot

/-- Embeds `state-store.js` `isEmpty`. -/
def Store.isEmpty (s : Store) : Bool := s.length = 0

/-- A favorites command object from `action-definitions.js` (the local,
non-database module): the constructor arguments together with the mutable
closure state (`previousState` for clear-all, `addedUrls` for bulk add). -/
inductive FavCmd where
  | addFav (url : String)
  | removeFav (url : String)
  | clearAll (previousState : Option (List String)) (affectedCount : Nat)
  | bulkAdd (validUrls : List String) (addedUrls : List String)
deriving DecidableEq, Repr

/-- Embeds `createClearAllAction`: at construction only the current count is
captured (for the description); `previousState` starts as `null`. -/
def createClearAllAction (s : Store) : FavCmd :=
  FavCmd.clearAll none (Store.getCount s)

/-- Embeds `createAddFavoriteAction`: throws (`none`) when the url is empty. -/
def createAddFavoriteAction (url : String) : Option FavCmd :=
  if url = "" then none else some (FavCmd.addFav url)

/-- Embeds `createRemoveFavoriteAction`: throws (`none`) when the url is empty. -/
def createRemoveFavoriteAction (url : String) : Option FavCmd :=
  if url = "" then none else some (FavCmd.removeFav url)

/-- The wellformedness the action factories enforce at construction time:
urls handed to `store.add`/`store.remove` are non-empty strings. -/
def FavCmd.valid : FavCmd → Prop
  | FavCmd.addFav url => url ≠ ""
  | FavCmd.removeFav url => url ≠ ""
  | FavCmd.clearAll _ _ => True
  | FavCmd.bulkAdd validUrls _ => ∀ u ∈ validUrls, u ≠ ""

instance : DecidablePred FavCmd.valid := by
  intro c
  cases c <;> simp [FavCmd.valid] <;> infer_instance

/-- The `validUrls.forEach` loop of bulk add's `execute`: add each url,
tracking the ones newly added; the third component records whether
`store.add` threw part way (leaving the store partially mutated). -/
def bulkExec (s : Store) : List String → Store × List String × Bool
  | [] => (s, [], false)
  | u :: rest =>
      if u = "" then (s, [], true)
      else
        let wasAdded := !(Store.has s u)
        let s' := if wasAdded then s ++ [u] else s
        let r := bulkExec s' rest
        (r.1, (if wasAdded then u :: r.2.1 else r.2.1), r.2.2)

/-- The `addedUrls.forEach` loop of bulk add's `undo`: remove each tracked
url, counting the removals; the third component records a throw. -/
def bulkUndo (s : Store) : List String → Store × Nat × Bool
  | [] => (s, 0, false)
  | u :: rest =>
      if u = "" then (s, 0, true)
      else
        let wasRemoved := Store.has s u
        let s' := List.filter (fun x => x != u) s
        let r := bulkUndo s' rest
        (r.1, (if wasRemoved then r.2.1 + 1 else r.2.1), r.2.2)

/-- Embeds `execute()` of each command, returning the command's updated closure
state, the updated store, and the JavaScript outcome. -/
def FavCmd.run : FavCmd → Store → FavCmd × Store × JsRes
  | FavCmd.addFav url, s =>
      match Store.add s url with
      | none => (FavCmd.addFav url, s, JsRes.thrown)
      | some (s', wasAdded) => (FavCmd.addFav url, s', JsRes.ok (JsVal.vBool wasAdded))
  | FavCmd.removeFav url, s =>
      match Store.remove s url with
      | none => (FavCmd.removeFav url, s, JsRes.thrown)
      | some (s', wasRemoved) => (FavCmd.removeFav url, s', JsRes.ok (JsVal.vBool wasRemoved))
  | FavCmd.clearAll _ n, s =>
      -- previousState = stateStore.getAll(); return stateStore.clear()
      (FavCmd.clearAll (some (Store.getAll s)) n, (Store.clear s).1,
        JsRes.ok (JsVal.vSet (Store.clear s).2))
  | FavCmd.bulkAdd validUrls _, s =>
      let r := bulkExec s validUrls
      if r.2.2 then (FavCmd.bulkAdd validUrls r.2.1, r.1, JsRes.thrown)
      else (FavCmd.bulkAdd validUrls r.2.1, r.1,
        JsRes.ok (JsVal.vBool (decide (0 < r.2.1.length))))

/-- Embeds `undo()` of each command. -/
def FavCmd.undoRun : FavCmd → Store → FavCmd × Store × JsRes
  | FavCmd.addFav url, s =>
      match Store.remove s url with
      | none => (FavCmd.addFav url, s, JsRes.thrown)
      | some (s', wasRemoved) => (FavCmd.addFav url, s', JsRes.ok (JsVal.vBool wasRemoved))
  | FavCmd.removeFav url, s =>
      match Store.add s url with
      | none => (FavCmd.removeFav url, s, JsRes.thrown)
      | some (s', wasAdded) => (FavCmd.removeFav url, s', JsRes.ok (JsVal.vBool wasAdded))
  | FavCmd.clearAll prev n, s =>
      match prev with
      | some p =>
          (FavCmd.clearAll (some p) n, Store.restore s p, JsRes.ok (JsVal.vBool true))
      | none => (FavCmd.clearAll none n, s, JsRes.ok (JsVal.vBool false))
  | FavCmd.bulkAdd validUrls added, s =>
      let r := bulkUndo s added
      if r.2.2 then (FavCmd.bulkAdd validUrls added, r.1, JsRes.thrown)
      else (FavCmd.bulkAdd validUrls [], r.1,
        JsRes.ok (JsVal.vBool (decide (0 < r.2.1))))

/-- The duck-typed command interface `createCommandManager` consumes:
whether `execute`/`undo` exist as functions, and what running them does to
the command's own state and the world. -/
structure CmdSem (C σ : Type) where
  hasExecute : C → Bool
  exec : C → σ → C × σ × JsRes
  hasUndo : C → Bool
  undoRun : C → σ → C × σ × JsRes

/-- The favorites commands as seen by the manager: every factory-built
action object has `execute` and `undo` methods. -/
def favSem : CmdSem FavCmd Store where
  hasExecute := fun _ => true
  exec := FavCmd.run
  hasUndo := fun _ => true
  undoRun := FavCmd.undoRun

/-- The private state of `createCommandManager`: `actionHistory` and
`currentHistoryIndex` (a JavaScript number, so an integer; `-1` means
empty). -/
structure CM (C : Type) where
  history : List C
  idx : Int
deriving DecidableEq, Repr

/-- The fresh manager: empty history, cursor `-1`. -/
def CM.initial {C : Type} : CM C := ⟨[], -1⟩

/-- JavaScript array indexing `a[i]`: `undefined` (`none`) for a negative
or out-of-range index. -/
def jsIndex {α : Type} (l : List α) (i : Int) : Option α :=
  if i < 0 then none else l.get? i.toNat

/-- The history kept by the truncation step of `executeAction`:
`if (currentHistoryIndex < actionHistory.length - 1)
 actionHistory.splice(currentHistoryIndex + 1)`. -/
def CM.truncated {C : Type} (cm : CM C) : List C :=
  if cm.idx < (cm.history.length : Int) - 1 then
    cm.history.take (cm.idx + 1).toNat
  else cm.history

/-- Embeds `executeAction(action)`: throws (`Except.error`) when the action has no
`execute` method or when `execute()` throws (the catch block re-throws);
returns `false` when the result is strictly `false`; otherwise truncates
any redo tail, appends the action and advances the cursor. -/
def CM.executeAction {C σ : Type} (sem : CmdSem C σ) (cm : CM C) (w : σ) (a : C) :
    CM C × σ × Except Unit Bool :=
  if sem.hasExecute a = false then (cm, w, Except.error ())
  else
    match sem.exec a w with
    | (_, w', JsRes.thrown) => (cm, w', Except.error ())
    | (a', w', JsRes.ok v) =>
        if JsVal.isStrictFalse v then (cm, w', Except.ok false)
        else (⟨CM.truncated cm ++ [a'], cm.idx + 1⟩, w', Except.ok true)

/-- Embeds `undo()`: `false` when the cursor is below zero, when the current
entry lacks an `undo` method or when `undo()` throws (all caught);
otherwise runs `undo()` and decrements the cursor. The history entry
reflects any mutation `undo()` made to the command object. -/
def CM.undo {C σ : Type} (sem : CmdSem C σ) (cm : CM C) (w : σ) : CM C × σ × Bool :=
  if cm.idx < 0 then (cm, w, false)
  else
    match jsIndex cm.history cm.idx with
    | none => (cm, w, false)
    | some a =>
        if sem.hasUndo a = false then (cm, w, false)
        else
          match sem.undoRun a w with
          | (a', w', JsRes.thrown) =>
              (⟨cm.history.set cm.idx.toNat a', cm.idx⟩, w', false)
          | (a', w', JsRes.ok _) =>
              (⟨cm.history.set cm.idx.toNat a', cm.idx - 1⟩, w', true)

/-- Embeds `redo()`: `false` when the cursor is already at the last entry;
otherwise advances the cursor first, re-runs `execute()` on the
newly-pointed-to entry, and on a throw rolls the cursor back (error
swallowed). The returned value of `execute()` is ignored. -/
def CM.redo {C σ : Type} (sem : CmdSem C σ) (cm : CM C) (w : σ) : CM C × σ × Bool :=
  if (cm.history.length : Int) - 1 ≤ cm.idx then (cm, w, false)
  else
    match jsIndex cm.history (cm.idx + 1) with
    | none => (cm, w, false)
    | some a =>
        if sem.hasExecute a = false then (cm, w, false)
        else
          match sem.exec a w with
          | (a', w', JsRes.thrown) =>
              (⟨cm.history.set (cm.idx + 1).toNat a', cm.idx⟩, w', false)
          | (a', w', JsRes.ok _) =>
              (⟨cm.history.set (cm.idx + 1).toNat a', cm.idx + 1⟩, w', true)

/-- Embeds `canUndo()`: `currentHistoryIndex >= 0`. -/
def CM.canUndo {C : Type} (cm : CM C) : Bool := 0 ≤ cm.idx

/-- Embeds `canRedo()`: `currentHistoryIndex < actionHistory.length - 1`. -/
def CM.canRedo {C : Type} (cm : CM C) : Bool := cm.idx < (cm.history.length : Int) - 1

/-- Embeds `clearHistory(keepCurrent)`. -/
def CM.clearHistory {C : Type} (cm : CM C) (keepCurrent : Bool) : CM C :=
  if keepCurrent ∧ 0 ≤ cm.idx then ⟨cm.history.take (cm.idx + 1).toNat, cm.idx⟩
  else ⟨[], -1⟩

/-- The documented cursor invariant:
`-1 <= currentIndex <= history.length - 1`. -/
def CM.Inv {C : Type} (cm : CM C) : Prop :=
  -1 ≤ cm.idx ∧ cm.idx ≤ (cm.history.length : Int) - 1

instance {C : Type} (cm : CM C) : Decidable (CM.Inv cm) := by
  unfold CM.Inv; infer_instance

/-- The store state reached by `undo()` followed by `redo()`. -/
def undoRedoState {C σ : Type} (sem : CmdSem C σ) (cm : CM C) (w : σ) : σ :=
  let u := CM.undo sem cm w
  (CM.redo sem u.1 u.2.1).2.1

/-- A minimal duck-typed command for exercising the manager exactly as the
repository's tests do with hand-written stub actions: `ret v` returns `v`
from `execute()`, `throwing` throws; `undo` always succeeds. The world is
a counter of how many times any `execute`/`undo` body ran. -/
inductive SimCmd where
  | ret (v : JsVal)
  | throwing
deriving DecidableEq, Repr

/-- Semantics of the stub commands over a `Nat` world. -/
def simSem : CmdSem SimCmd Nat where
  hasExecute := fun _ => true
  exec := fun c n =>
    match c with
    | SimCmd.ret v => (c, n + 1, JsRes.ok v)
    | SimCmd.throwing => (c, n + 1, JsRes.thrown)
  hasUndo := fun _ => true
  undoRun := fun c n => (c, n + 1, JsRes.ok (JsVal.vBool true))

/-- Whitespace for the purposes of JavaScript `trim()` (the common ASCII
whitespace characters). -/
def isSpaceChar (c : Char) : Bool :=
  c = ' ' ∨ c = Char.ofNat 9 ∨ c = Char.ofNat 10 ∨ c = Char.ofNat 13 ∨ c = Char.ofNat 12

/-- JavaScript `String.prototype.trim`, over the character list. -/
def jsTrim (s : String) : String :=
  String.mk (((s.data.dropWhile isSpaceChar).reverse.dropWhile isSpaceChar).reverse)

/-- ASCII lowering of one character, as the case-insensitive `i` regex
flag behaves on the `http`/`https` scheme letters. -/
def asciiLower (c : Char) : Char :=
  if 'A' ≤ c ∧ c ≤ 'Z' then Char.ofNat (c.toNat + 32) else c

/-- Whether the first list begins with the second. -/
def beginsWith : List Char → List Char → Bool
  | _, [] => true
  | [], _ :: _ => false
  | c :: cs, p :: ps => c == p && beginsWith cs ps

/-- Embeds `normalizeUrl` from `url-display.js`: trim, keep an existing
`http://`/`https://` scheme (the regex test is case-insensitive), turn a
protocol-relative `//` into `https:`, otherwise default to `https://`. -/
def normalizeUrl (url : String) : String :=
  if url = "" then ""
  else
    let trimmed := jsTrim url
    if trimmed = "" then ""
    else if beginsWith (trimmed.data.map asciiLower) "http://".data
        ∨ beginsWith (trimmed.data.map asciiLower) "https://".data then
      trimmed
    else if beginsWith trimmed.data "//".data then "https:" ++ trimmed
    else "https://" ++ trimmed

/-- The orchestrating facade of `favorites-store-modular.js`: the state
store, the command manager, and the observer side modelled by the list of
snapshot broadcasts performed by `notifyAll` (one entry per broadcast). -/
structure Facade where
  store : Store
  cm : CM FavCmd
  log : List (List String)
deriving DecidableEq, Repr

/-- A fresh `createFavoritesStore()` instance. -/
def Facade.initial : Facade := ⟨[], CM.initial, []⟩

/-- Embeds `executeAndNotify`: run through the command manager; on `true`,
broadcast `stateStore.getAll()` to the observers. -/
def Facade.executeAndNotify (fs : Facade) (a : FavCmd) : Facade × Except Unit Bool :=
  match CM.executeAction favSem fs.cm fs.store a with
  | (cm', w', Except.ok true) =>
      (⟨w', cm', fs.log ++ [Store.getAll w']⟩, Except.ok true)
  | (cm', w', r) => (⟨w', cm', fs.log⟩, r)

/-- Embeds `addFavorite(url)`: early `false` when already present, then the
factory (which throws on an empty url), then `executeAndNotify`. -/
def Facade.addFavorite (fs : Facade) (url : String) : Facade × Except Unit Bool :=
  if Store.has fs.store url then (fs, Except.ok false)
  else
    match createAddFavoriteAction url with
    | none => (fs, Except.error ())
    | some a => Facade.executeAndNotify fs a

/-- Modelled from the spec: the facade's `hydrate(snapshotOrIterable,
{ notify = true })` is exercised by the repository's tests
(`favorites-store-advanced.test.js`) and called by the browser script for
the initial database sync, but its implementation is absent from the
captured source. Per the spec it replaces the store contents via
`restore` without going through the CommandManager, and notifies
subscribers exactly when `notify` is true. -/
def Facade.hydrate (fs : Facade) (input : List String) (notify : Bool := true) : Facade :=
  let s' := Store.restore fs.store input
  ⟨s', fs.cm, if notify then fs.log ++ [Store.getAll s'] else fs.log⟩

/-- A subscriber callback as `notifyAll` sees it: invoking it on a state
either returns normally or throws. -/
structure ObsSem (K σ : Type) where
  call : K → σ → Except Unit Unit

/-- Embeds `notifySubscriber`: the invocation wrapped in try/catch, so a thrown
exception is swallowed (after logging). -/
def notifySubscriberCaught {K σ : Type} (sem : ObsSem K σ) (k : K) (s : σ) :
    Except Unit Unit :=
  match sem.call k s with
  | Except.error _ => Except.ok ()
  | Except.ok u => Except.ok u

/-- Embeds `notifyAll(newState)`: iterate over the (copied) subscriber list,
invoking each through `notifySubscriber`; an exception escaping the
wrapper would abort the iteration, exactly as an uncaught throw aborts
`forEach`. The first component logs each invocation performed, with the
state it received. -/
def notifyAllRun {K σ : Type} (sem : ObsSem K σ) : List K → σ → List (K × σ) × Except Unit Unit
  | [], _ => ([], Except.ok ())
  | k :: rest, s =>
      match notifySubscriberCaught sem k s with
      | Except.error e => ([(k, s)], Except.error e)
      | Except.ok _ =>
          let r := notifyAllRun sem rest s
          ((k, s) :: r.1, r.2)

@[simp]
theorem Store.has_eq_true_iff {s : Store} {u : String} : Store.has s u = true ↔ u ∈ s := by
  simp [Store.has]

@[simp]
theorem Store.has_eq_false_iff {s : Store} {u : String} : Store.has s u = false ↔ u ∉ s := by
  simp [Store.has]

theorem filter_ne_of_not_mem {s : List String} {u : String} (h : u ∉ s) :
    s.filter (fun x => x != u) = s := by
  refine List.filter_eq_self.mpr (fun a ha => ?_)
  simp only [bne_iff_ne, ne_eq, decide_eq_true_eq]
  exact fun e => h (e ▸ ha)

theorem filter_append_singleton {s : List String} {u : String} (h : u ∉ s) :
    (s ++ [u]).filter (fun x => x != u) = s := by
  rw [List.filter_append, filter_ne_of_not_mem h]
  simp

theorem dedupAppend_of_nodup :
    ∀ (l acc : List String), acc.Nodup → (∀ u ∈ l, u ∉ acc) → l.Nodup →
      Store.dedupAppend acc l = acc ++ l
  | [], acc, _, _, _ => by simp [Store.dedupAppend]
  | u :: rest, acc, hacc, hdisj, hnd => by
      have hu : u ∉ acc := hdisj u (by simp)
      have hhas : Store.has acc u = false := Store.has_eq_false_iff.mpr hu
      rw [Store.dedupAppend, hhas]
      simp only [Bool.false_eq_true, if_false]
      have hrest :=
        dedupAppend_of_nodup rest (acc ++ [u])
          (by simp [List.nodup_append, hacc, hu])
          (by
            intro v hv
            simp only [List.mem_append, List.mem_singleton]
            rintro (hc | rfl)
            · exact hdisj v (by simp [hv]) hc
            · exact (List.nodup_cons.mp hnd).1 hv)
          (List.nodup_cons.mp hnd).2
      rw [hrest]
      simp

theorem restore_self {s : Store} {l : List String} (h : l.Nodup) :
    Store.restore s l = l := by
  simpa using dedupAppend_of_nodup l [] (by simp) (by simp) h

theorem dedupAppend_nodup :
    ∀ (l acc : List String), acc.Nodup → (Store.dedupAppend acc l).Nodup
  | [], acc, hacc => by simpa [Store.dedupAppend] using hacc
  | u :: rest, acc, hacc => by
      rw [Store.dedupAppend]
      by_cases hu : u ∈ acc
      · simpa [Store.has_eq_true_iff.mpr hu] using dedupAppend_nodup rest acc hacc
      · have hhas : Store.has acc u = false := Store.has_eq_false_iff.mpr hu
        simp only [hhas, Bool.false_eq_true, if_false]
        exact dedupAppend_nodup rest (acc ++ [u]) (by simp [List.nodup_append, hacc, hu])

theorem restore_nodup {s : Store} {l : List String} : (Store.restore s l).Nodup :=
  dedupAppend_nodup l [] (by simp)

theorem bulkExec_spec :
    ∀ (urls : List String) (s : Store), (∀ u ∈ urls, u ≠ "") →
      ∃ added, bulkExec s urls = (s ++ added, added, false) ∧ added.Nodup ∧
        ∀ u ∈ added, u ∉ s ∧ u ≠ ""
  | [], s, _ => ⟨[], by simp [bulkExec], by simp, by simp⟩
  | u :: rest, s, h => by
      have hu : u ≠ "" := h u (by simp)
      by_cases hmem : u ∈ s
      · obtain ⟨added, heq, hnd, hprop⟩ :=
          bulkExec_spec rest s (fun v hv => h v (by simp [hv]))
        refine ⟨added, ?_, hnd, hprop⟩
        rw [bulkExec]
        simp [hu, Store.has_eq_true_iff.mpr hmem, heq]
      · obtain ⟨added, heq, hnd, hprop⟩ :=
          bulkExec_spec rest (s ++ [u]) (fun v hv => h v (by simp [hv]))
        refine ⟨u :: added, ?_, ?_, ?_⟩
        · rw [bulkExec]
          simp [hu, Store.has_eq_false_iff.mpr hmem, heq]
        · exact List.nodup_cons.mpr ⟨fun hc => ((hprop u hc).1 (by simp)), hnd⟩
        · intro v hv
          rcases List.mem_cons.mp hv with rfl | hv'
          · exact ⟨hmem, hu⟩
          · have := hprop v hv'
            exact ⟨fun hc => this.1 (by simp [hc]), this.2⟩

theorem bulkUndo_removes :
    ∀ (added : List String) (s : Store), added.Nodup →
      (∀ u ∈ added, u ∉ s ∧ u ≠ "") →
      bulkUndo (s ++ added) added = (s, added.length, false)
  | [], s, _, _ => by simp [bulkUndo]
  | u :: rest, s, hnd, hprop => by
      have hu : u ≠ "" := (hprop u (by simp)).2
      have hus : u ∉ s := (hprop u (by simp)).1
      have hur : u ∉ rest := (List.nodup_cons.mp hnd).1
      have hfil : (s ++ u :: rest).filter (fun x => x != u) = s ++ rest := by
        rw [List.filter_append, filter_ne_of_not_mem hus, List.filter_cons]
        simp [filter_ne_of_not_mem hur]
      have hih :=
        bulkUndo_removes rest s (List.nodup_cons.mp hnd).2
          (fun v hv => hprop v (by simp [hv]))
      rw [bulkUndo]
      simp [hu, hfil, hih, Store.has_eq_true_iff.mpr (by simp : u ∈ s ++ u :: rest)]

theorem bulkExec_nodup :
    ∀ (urls : List String) (s : Store), s.Nodup → ((bulkExec s urls).1).Nodup
  | [], s, hs => by simpa [bulkExec] using hs
  | u :: rest, s, hs => by
      rw [bulkExec]
      by_cases hu : u = ""
      · simpa [hu] using hs
      · by_cases hmem : u ∈ s
        · simpa [hu, Store.has_eq_true_iff.mpr hmem] using
            bulkExec_nodup rest s hs
        · simpa [hu, Store.has_eq_false_iff.mpr hmem] using
            bulkExec_nodup rest (s ++ [u]) (by simp [List.nodup_append, hs, hmem])

theorem bulkUndo_nodup :
    ∀ (added : List String) (s : Store), s.Nodup → ((bulkUndo s added).1).Nodup
  | [], s, hs => by simpa [bulkUndo] using hs
  | u :: rest, s, hs => by
      rw [bulkUndo]
      by_cases hu : u = ""
      · simpa [hu] using hs
      · simpa [hu] using bulkUndo_nodup rest (s.filter (fun x => x != u)) (hs.filter _)

theorem run_nodup {c c' : FavCmd} {s s' : Store} {r : JsRes}
    (h : FavCmd.run c s = (c', s', r)) (hs : s.Nodup) : s'.Nodup := by
  cases c with
  | addFav url =>
      rw [FavCmd.run] at h
      unfold Store.add at h
      by_cases hu : url = ""
      · simp [hu] at h
        exact h.2.1 ▸ hs
      · by_cases hmem : url ∈ s
        · simp [hu, Store.has_eq_true_iff.mpr hmem] at h
          exact h.2.1 ▸ hs
        · simp [hu, Store.has_eq_false_iff.mpr hmem] at h
          exact h.2.1 ▸ (by simp [List.nodup_append, hs, hmem])
  | removeFav url =>
      rw [FavCmd.run] at h
      unfold Store.remove at h
      by_cases hu : url = ""
      · simp [hu] at h
        exact h.2.1 ▸ hs
      · simp [hu] at h
        exact h.2.1 ▸ hs.filter _
  | clearAll p n =>
      rw [FavCmd.run] at h
      simp [Store.clear] at h
      exact h.2.1 ▸ (by simp)
  | bulkAdd urls added =>
      rw [FavCmd.run] at h
      by_cases hthr : (bulkExec s urls).2.2
      · simp [hthr] at h
        exact h.2.1 ▸ bulkExec_nodup urls s hs
      · simp [hthr] at h
        exact h.2.1 ▸ bulkExec_nodup urls s hs

theorem favRoundTrip {b b' : FavCmd} {w w2 : Store} {v : JsVal}
    (hval : FavCmd.valid b) (hnd : w.Nodup)
    (hrun : FavCmd.run b w = (b', w2, JsRes.ok v))
    (hv : JsVal.isStrictFalse v = false) :
    ∃ b'' w3 v2, FavCmd.undoRun b' w2 = (b'', w3, JsRes.ok v2) ∧
      ∃ b3 v3, FavCmd.run b'' w3 = (b3, w2, JsRes.ok v3) := by
  cases b with
  | addFav url =>
      have hu : url ≠ "" := hval
      rw [FavCmd.run] at hrun
      unfold Store.add at hrun
      by_cases hmem : url ∈ w
      · simp [hu, Store.has_eq_true_iff.mpr hmem] at hrun
        rw [← hrun.2.2] at hv
        simp [JsVal.isStrictFalse] at hv
      · simp [hu, Store.has_eq_false_iff.mpr hmem] at hrun
        obtain ⟨hb, hw, _⟩ := hrun
        subst hb hw
        refine ⟨FavCmd.addFav url, w, JsVal.vBool true, ?_, ?_⟩
        · rw [FavCmd.undoRun]
          unfold Store.remove
          simp [hu, filter_append_singleton hmem, Store.has_eq_true_iff.mpr
            (by simp : url ∈ w ++ [url])]
        · refine ⟨FavCmd.addFav url, JsVal.vBool true, ?_⟩
          rw [FavCmd.run]
          unfold Store.add
          simp [hu, Store.has_eq_false_iff.mpr hmem]
  | removeFav url =>
      have hu : url ≠ "" := hval
      rw [FavCmd.run] at hrun
      unfold Store.remove at hrun
      by_cases hmem : url ∈ w
      · simp [hu, Store.has_eq_true_iff.mpr hmem] at hrun
        obtain ⟨hb, hw, _⟩ := hrun
        subst hb hw
        have hnotmem : url ∉ w.filter (fun x => x != url) := by simp
        refine ⟨FavCmd.removeFav url, w.filter (fun x => x != url) ++ [url],
          JsVal.vBool true, ?_, ?_⟩
        · rw [FavCmd.undoRun]
          unfold Store.add
          simp [hu, Store.has_eq_false_iff.mpr hnotmem]
        · refine ⟨FavCmd.removeFav url, JsVal.vBool true, ?_⟩
          rw [FavCmd.run]
          unfold Store.remove
          simp [hu, filter_append_singleton hnotmem, Store.has_eq_true_iff.mpr
            (by simp : url ∈ w.filter (fun x => x != url) ++ [url])]
      · simp [hu, Store.has_eq_false_iff.mpr hmem] at hrun
        rw [← hrun.2.2] at hv
        simp [JsVal.isStrictFalse] at hv
  | clearAll p n =>
      rw [FavCmd.run] at hrun
      simp [Store.clear, Store.getAll] at hrun
      obtain ⟨hb, hw, _⟩ := hrun
      subst hb hw
      refine ⟨FavCmd.clearAll (some w) n, w, JsVal.vBool true, ?_, ?_⟩
      · rw [FavCmd.undoRun]
        simp [restore_self hnd]
      · refine ⟨FavCmd.clearAll (some w) n, JsVal.vSet w, ?_⟩
        rw [FavCmd.run]
        simp [Store.clear, Store.getAll]
  | bulkAdd urls added0 =>
      obtain ⟨added, hexec, haddnd, hprop⟩ := bulkExec_spec urls w hval
      rw [FavCmd.run, hexec] at hrun
      simp at hrun
      obtain ⟨hb, hw, _⟩ := hrun
      subst hb hw
      have hundo := bulkUndo_removes added w haddnd (fun u hu => hprop u hu)
      refine ⟨FavCmd.bulkAdd urls [], w,
        JsVal.vBool (decide (0 < added.length)), ?_, ?_⟩
      · rw [FavCmd.undoRun, hundo]
        simp
      · refine ⟨FavCmd.bulkAdd urls added, JsVal.vBool (decide (0 < added.length)), ?_⟩
        rw [FavCmd.run, hexec]
        simp

theorem truncated_length {C : Type} {cm : CM C} (hInv : CM.Inv cm) :
    ((CM.truncated cm).length : Int) = cm.idx + 1 := by
  obtain ⟨h1, h2⟩ := hInv
  unfold CM.truncated
  by_cases hc : cm.idx < (cm.history.length : Int) - 1
  · simp [hc, List.length_take]
    omega
  · simp [hc]
    omega

theorem truncated_of_at_end {C : Type} {cm : CM C}
    (h : cm.idx = (cm.history.length : Int) - 1) : CM.truncated cm = cm.history := by
  unfold CM.truncated
  simp [h]

theorem jsIndex_concat {α : Type} (l : List α) (x : α) :
    jsIndex (l ++ [x]) (l.length : Int) = some x := by
  simp [jsIndex]

theorem jsIndex_set {α : Type} (l : List α) (i : Int) (x : α)
    (h0 : 0 ≤ i) (h : i.toNat < l.length) :
    jsIndex (l.set i.toNat x) i = some x := by
  simp [jsIndex, not_lt.mpr h0, List.get?_eq_getElem?, h]

theorem executeAction_ok_true {C σ : Type} {sem : CmdSem C σ} {cm cm' : CM C}
    {w w' : σ} {a : C} (hInv : CM.Inv cm)
    (h : CM.executeAction sem cm w a = (cm', w', Except.ok true)) :
    ∃ a' v, sem.hasExecute a = true ∧ sem.exec a w = (a', w', JsRes.ok v) ∧
      JsVal.isStrictFalse v = false ∧
      cm' = ⟨CM.truncated cm ++ [a'], cm.idx + 1⟩ ∧
      cm'.idx = (cm'.history.length : Int) - 1 ∧ CM.Inv cm' := by
  unfold CM.executeAction at h
  by_cases hhe : sem.hasExecute a = false
  · simp [hhe] at h
  · simp [hhe] at h
    rcases hx : sem.exec a w with ⟨a1, w1, r⟩
    rw [hx] at h
    cases r with
    | thrown => simp at h
    | ok v =>
        by_cases hsf : JsVal.isStrictFalse v
        · simp [hsf] at h
        · simp [hsf] at h
          obtain ⟨hcm, hw, _⟩ := h
          have hlen : ((CM.truncated cm).length : Int) = cm.idx + 1 :=
            truncated_length hInv
          refine ⟨a1, v, by simpa using hhe, rfl, by simpa using hsf,
            hcm.symm, ?_, ?_⟩
          · rw [← hcm]
            simp
            omega
          · rw [← hcm]
            constructor
            · simp
              omega
            · simp
              omega

/-- C1: for every store and every pair of successfully executed favorites
commands A then B, `execute(A); execute(B); undo(); redo()` leaves the
favorites state identical to the state immediately after executing B. -/
theorem undo_redo_round_trip
    (cm0 cm1 cm2 : CM FavCmd) (w0 w1 w2 : Store) (A B : FavCmd)
    (hInv : CM.Inv cm0) (hnd : w0.Nodup) (hB : FavCmd.valid B)
    (h1 : CM.executeAction favSem cm0 w0 A = (cm1, w1, Except.ok true))
    (h2 : CM.executeAction favSem cm1 w1 B = (cm2, w2, Except.ok true)) :
    undoRedoState favSem cm2 w2 = w2 := by
  obtain ⟨A', vA, _, hxA, _, hcm1, hend1, hInv1⟩ := executeAction_ok_true hInv h1
  have hxA' : FavCmd.run A w0 = (A', w1, JsRes.ok vA) := hxA
  have hnd1 : w1.Nodup := run_nodup hxA' hnd
  obtain ⟨B', vB, _, hxB, hsfB, hcm2, hend2, hInv2⟩ := executeAction_ok_true hInv1 h2
  have hxB' : FavCmd.run B w1 = (B', w2, JsRes.ok vB) := hxB
  obtain ⟨B'', w3, v2, hundoB, B3, v3, hreexec⟩ := favRoundTrip hB hnd1 hxB' hsfB
  have hundoB' : favSem.undoRun B' w2 = (B'', w3, JsRes.ok v2) := hundoB
  have hreexec' : favSem.exec B'' w3 = (B3, w2, JsRes.ok v3) := hreexec
  subst hcm2
  rw [truncated_of_at_end hend1] at *
  have hidx : cm1.idx + 1 = (cm1.history.length : Int) := by omega
  rw [hidx] at *
  have hu : CM.undo favSem ⟨cm1.history ++ [B'], (cm1.history.length : Int)⟩ w2 =
      (⟨(cm1.history ++ [B']).set cm1.history.length B'',
        (cm1.history.length : Int) - 1⟩, w3, true) := by
    unfold CM.undo
    rw [if_neg (by omega : ¬((cm1.history.length : Int) < 0))]
    rw [jsIndex_concat]
    simp only [favSem]
    rw [hundoB]
    simp
  have hr : CM.redo favSem
      ⟨(cm1.history ++ [B']).set cm1.history.length B'',
        (cm1.history.length : Int) - 1⟩ w3 =
      (⟨((cm1.history ++ [B']).set cm1.history.length B'').set cm1.history.length B3,
        (cm1.history.length : Int)⟩, w2, true) := by
    unfold CM.redo
    rw [if_neg (by simp)]
    have hset : jsIndex ((cm1.history ++ [B']).set cm1.history.length B'')
        (((cm1.history.length : Int) - 1) + 1) = some B'' := by
      rw [show ((cm1.history.length : Int) - 1) + 1 = (cm1.history.length : Int) by omega]
      have := jsIndex_set (cm1.history ++ [B']) (cm1.history.length : Int) B''
        (by omega) (by simp)
      simpa using this
    rw [hset]
    simp only [favSem]
    rw [hreexec]
    simp

  unfold undoRedoState
  rw [hu]
  simp only
  rw [hr]

instance {ε α : Type} [DecidableEq ε] [DecidableEq α] : DecidableEq (Except ε α) := by
  intro a b
  cases a <;> cases b
  case error.error e f => exact decidable_of_iff (e = f) (by simp)
  case ok.ok x y => exact decidable_of_iff (x = y) (by simp)
  all_goals exact isFalse (fun h => Except.noConfusion h)

/-- Witness for the round-trip theorem: the concrete scenario of adding
"a" then "b", undoing, and redoing. -/
theorem undo_redo_round_trip_witness :
    undoRedoState favSem ⟨[FavCmd.addFav "a", FavCmd.addFav "b"], 1⟩
      (["a", "b"] : Store) = ["a", "b"] :=
  undo_redo_round_trip CM.initial ⟨[FavCmd.addFav "a"], 0⟩
    ⟨[FavCmd.addFav "a", FavCmd.addFav "b"], 1⟩
    [] ["a"] ["a", "b"] (FavCmd.addFav "a") (FavCmd.addFav "b")
    (by decide) (by decide) (by decide) (by decide) (by decide)

/-- C2: executing a new command after an undo discards the redo branch:
after `execute(A); execute(B); undo(); execute(C)`, `canRedo()` is false
and B's history entry has been discarded (the history is A's entry
followed by C's entry). -/
theorem redo_branch_discard {C σ : Type} (sem : CmdSem C σ)
    (w0 w1 w2 w3 w4 : σ) (a b c : C) (cm1 cm2 cm3 cm4 : CM C)
    (h1 : CM.executeAction sem CM.initial w0 a = (cm1, w1, Except.ok true))
    (h2 : CM.executeAction sem cm1 w1 b = (cm2, w2, Except.ok true))
    (h3 : CM.undo sem cm2 w2 = (cm3, w3, true))
    (h4 : CM.executeAction sem cm3 w3 c = (cm4, w4, Except.ok true)) :
    CM.canRedo cm4 = false ∧ ∃ c', cm4.history = cm2.history.take 1 ++ [c'] := by
  have hInv0 : CM.Inv (CM.initial : CM C) := by
    constructor <;> simp [CM.initial]
  obtain ⟨a1, va, _, _, _, hcm1, _, hInv1⟩ := executeAction_ok_true hInv0 h1
  have hcm1' : cm1 = ⟨[a1], 0⟩ := by
    rw [hcm1]
    simp [CM.truncated, CM.initial]
  subst hcm1'
  obtain ⟨b1, vb, _, _, _, hcm2, _, hInv2⟩ := executeAction_ok_true hInv1 h2
  have hcm2' : cm2 = ⟨[a1, b1], 1⟩ := by
    rw [hcm2]
    simp [CM.truncated]
  subst hcm2'
  have hjs : jsIndex [a1, b1] (1 : Int) = some b1 := by
    simp [jsIndex]
  simp only [CM.undo, hjs] at h3
  norm_num at h3
  by_cases hu : sem.hasUndo b1 = false
  · simp [hu] at h3
  · simp only [hu, if_false] at h3
    rcases hur : sem.undoRun b1 w2 with ⟨b2, w3', r⟩
    rw [hur] at h3
    cases r with
    | thrown => simp at h3
    | ok v =>
        simp at h3
        obtain ⟨hcm3, hw3⟩ := h3
        have hcm3' : cm3 = ⟨[a1, b2], 0⟩ := by
          rw [← hcm3]
        subst hcm3'
        have hInv3 : CM.Inv (⟨[a1, b2], 0⟩ : CM C) := by
          constructor <;> simp
        obtain ⟨c1, vc, _, _, _, hcm4, _, _⟩ := executeAction_ok_true hInv3 h4
        have hcm4' : cm4 = ⟨[a1, c1], 1⟩ := by
          rw [hcm4]
          simp [CM.truncated]
        constructor
        · rw [hcm4']
          simp [CM.canRedo]
        · exact ⟨c1, by rw [hcm4']; simp⟩

/-- Witness for the redo-branch-discard theorem with three stub commands. -/
theorem redo_branch_discard_witness :
    CM.canRedo (⟨[SimCmd.ret JsVal.vNull, SimCmd.ret (JsVal.vStr "x")], 1⟩ : CM SimCmd)
      = false ∧
    ∃ c', (⟨[SimCmd.ret JsVal.vNull, SimCmd.ret (JsVal.vStr "x")], 1⟩ : CM SimCmd).history
      = (⟨[SimCmd.ret JsVal.vNull, SimCmd.ret (JsVal.vNum 1)], 1⟩ : CM SimCmd).history.take 1
        ++ [c'] :=
  redo_branch_discard simSem 0 1 2 3 4
    (SimCmd.ret JsVal.vNull) (SimCmd.ret (JsVal.vNum 1)) (SimCmd.ret (JsVal.vStr "x"))
    ⟨[SimCmd.ret JsVal.vNull], 0⟩
    ⟨[SimCmd.ret JsVal.vNull, SimCmd.ret (JsVal.vNum 1)], 1⟩
    ⟨[SimCmd.ret JsVal.vNull, SimCmd.ret (JsVal.vNum 1)], 0⟩
    ⟨[SimCmd.ret JsVal.vNull, SimCmd.ret (JsVal.vStr "x")], 1⟩
    (by decide) (by decide) (by decide) (by decide)

/-- C3 counterexample: a command whose `execute()` returns `undefined`
(falsy but not strictly `false`) IS recorded and `executeAction` returns
true, because the source tests `result !== false`, not falsiness. -/
theorem falsy_undefined_still_recorded :
    CM.executeAction simSem CM.initial 0 (SimCmd.ret JsVal.vUndefined)
      = (⟨[SimCmd.ret JsVal.vUndefined], 0⟩, 1, Except.ok true) ∧
    ¬((CM.executeAction simSem CM.initial 0 (SimCmd.ret JsVal.vUndefined)).2.2
        = Except.ok false ∧
      (CM.executeAction simSem CM.initial 0 (SimCmd.ret JsVal.vUndefined)).1
        = CM.initial) := by
  decide

/-- C3 amended: only a result that is strictly `false` makes
`executeAction` return false with the history and cursor untouched; any
other returned value (including the other falsy values `undefined`,
`null`, `0`, `""`) records the command and returns true. -/
theorem strict_false_refusal {C σ : Type} (sem : CmdSem C σ) (cm : CM C) (w : σ)
    (a a' : C) (w' : σ) (v : JsVal)
    (hx : sem.hasExecute a = true)
    (hrun : sem.exec a w = (a', w', JsRes.ok v)) :
    (v = JsVal.vBool false → CM.executeAction sem cm w a = (cm, w', Except.ok false)) ∧
    (JsVal.isStrictFalse v = false →
      CM.executeAction sem cm w a
        = (⟨CM.truncated cm ++ [a'], cm.idx + 1⟩, w', Except.ok true)) := by
  constructor
  · rintro rfl
    simp [CM.executeAction, hx, hrun, JsVal.isStrictFalse]
  · intro hv
    simp [CM.executeAction, hx, hrun, hv]

/-- Witness: a stub command returning strict `false` is refused and the
manager state is unchanged. -/
theorem strict_false_refusal_witness :
    CM.executeAction simSem CM.initial 0 (SimCmd.ret (JsVal.vBool false))
      = (CM.initial, 1, Except.ok false) :=
  (strict_false_refusal simSem CM.initial 0 (SimCmd.ret (JsVal.vBool false))
    (SimCmd.ret (JsVal.vBool false)) 1 (JsVal.vBool false) rfl rfl).1 rfl

/-- C4: when `execute()` throws, `executeAction` re-throws and the
history and cursor are exactly as before the call. -/
theorem execute_throw_keeps_history {C σ : Type} (sem : CmdSem C σ) (cm : CM C)
    (w : σ) (a a' : C) (w' : σ)
    (hx : sem.hasExecute a = true)
    (hrun : sem.exec a w = (a', w', JsRes.thrown)) :
    CM.executeAction sem cm w a = (cm, w', Except.error ()) := by
  simp [CM.executeAction, hx, hrun]

/-- Witness: the always-throwing stub command propagates the error and
leaves the fresh manager untouched. -/
theorem execute_throw_keeps_history_witness :
    CM.executeAction simSem CM.initial 0 SimCmd.throwing
      = (CM.initial, 1, Except.error ()) :=
  execute_throw_keeps_history simSem CM.initial 0 SimCmd.throwing SimCmd.throwing 1
    rfl rfl

/-- C5: the cursor invariant `-1 <= currentIndex <= history.length - 1`
holds for the fresh manager and is preserved by `executeAction`, `undo`,
`redo`, and `clearHistory` with either flag value. -/
theorem cursor_invariant {C σ : Type} (sem : CmdSem C σ) (cm : CM C) (w : σ)
    (a : C) (keep : Bool) (hInv : CM.Inv cm) :
    CM.Inv (CM.initial : CM C) ∧
    CM.Inv (CM.executeAction sem cm w a).1 ∧
    CM.Inv (CM.undo sem cm w).1 ∧
    CM.Inv (CM.redo sem cm w).1 ∧
    CM.Inv (CM.clearHistory cm keep) := by
  obtain ⟨hl, hr⟩ := hInv
  refine ⟨by constructor <;> simp [CM.initial], ?_, ?_, ?_, ?_⟩
  · unfold CM.executeAction
    by_cases hx : sem.hasExecute a = false
    · simpa [hx] using ⟨hl, hr⟩
    · simp only [hx, if_false]
      rcases hrun : sem.exec a w with ⟨a1, w1, r⟩
      cases r with
      | thrown => exact ⟨hl, hr⟩
      | ok v =>
          by_cases hsf : JsVal.isStrictFalse v
          · simpa [hsf] using ⟨hl, hr⟩
          · have hlen : ((CM.truncated cm).length : Int) = cm.idx + 1 :=
              truncated_length ⟨hl, hr⟩
            simp only [hsf, Bool.false_eq_true, if_false]
            constructor <;> simp <;> omega
  · unfold CM.undo
    by_cases h0 : cm.idx < 0
    · simpa [h0] using ⟨hl, hr⟩
    · simp only [h0, if_false]
      cases hj : jsIndex cm.history cm.idx with
      | none => exact ⟨hl, hr⟩
      | some a2 =>
          by_cases hu : sem.hasUndo a2 = false
          · simpa [hu] using ⟨hl, hr⟩
          · simp only [hu, if_false]
            rcases hur : sem.undoRun a2 w with ⟨a3, w3, r⟩
            cases r with
            | thrown => constructor <;> simp <;> omega
            | ok v => constructor <;> simp <;> omega
  · unfold CM.redo
    by_cases h0 : (cm.history.length : Int) - 1 ≤ cm.idx
    · simpa [h0] using ⟨hl, hr⟩
    · simp only [h0, if_false]
      cases hj : jsIndex cm.history (cm.idx + 1) with
      | none => exact ⟨hl, hr⟩
      | some a2 =>
          by_cases hx : sem.hasExecute a2 = false
          · simpa [hx] using ⟨hl, hr⟩
          · simp only [hx, if_false]
            rcases hrun : sem.exec a2 w with ⟨a3, w3, r⟩
            cases r with
            | thrown => constructor <;> simp <;> omega
            | ok v => constructor <;> simp <;> omega
  · unfold CM.clearHistory
    by_cases hk : keep ∧ 0 ≤ cm.idx
    · simp only [hk, if_true]
      constructor <;> simp [List.length_take] <;> omega
    · simp only [hk, if_false]
      constructor <;> simp

/-- Witness: the invariant conjunction at a concrete one-entry manager. -/
theorem cursor_invariant_witness :
    CM.Inv (CM.initial : CM SimCmd) ∧
    CM.Inv (CM.executeAction simSem ⟨[SimCmd.ret JsVal.vNull], 0⟩ 0
      (SimCmd.ret JsVal.vNull)).1 ∧
    CM.Inv (CM.undo simSem ⟨[SimCmd.ret JsVal.vNull], 0⟩ 0).1 ∧
    CM.Inv (CM.redo simSem ⟨[SimCmd.ret JsVal.vNull], 0⟩ 0).1 ∧
    CM.Inv (CM.clearHistory ⟨[SimCmd.ret JsVal.vNull], 0⟩ true) :=
  cursor_invariant simSem ⟨[SimCmd.ret JsVal.vNull], 0⟩ 0 (SimCmd.ret JsVal.vNull)
    true (by decide)

/-- C10: when redo is available and the re-executed command's `execute()`
resolves without throwing, `redo()` returns true and advances the cursor
even when the resolved value is the no-op sentinel `false`; only a thrown
exception rolls the cursor back and makes `redo()` return false. -/
theorem redo_ignores_result_value {C σ : Type} (sem : CmdSem C σ) (cm : CM C)
    (w : σ) (a : C)
    (h1 : cm.idx < (cm.history.length : Int) - 1)
    (h2 : jsIndex cm.history (cm.idx + 1) = some a)
    (h3 : sem.hasExecute a = true) :
    (∀ a' w' v, sem.exec a w = (a', w', JsRes.ok v) →
      CM.redo sem cm w
        = (⟨cm.history.set (cm.idx + 1).toNat a', cm.idx + 1⟩, w', true)) ∧
    (∀ a' w', sem.exec a w = (a', w', JsRes.thrown) →
      CM.redo sem cm w
        = (⟨cm.history.set (cm.idx + 1).toNat a', cm.idx⟩, w', false)) := by
  constructor
  · intro a' w' v hrun
    simp [CM.redo, not_le.mpr h1, h2, h3, hrun]
  · intro a' w' hrun
    simp [CM.redo, not_le.mpr h1, h2, h3, hrun]

/-- Witness: redoing a stub command that resolves to strict `false`
still returns true and advances the cursor (asymmetric with
`executeAction`, which refuses a strict `false`). -/
theorem redo_ignores_result_value_witness :
    CM.redo simSem ⟨[SimCmd.ret (JsVal.vBool false)], -1⟩ 0
      = (⟨[SimCmd.ret (JsVal.vBool false)], 0⟩, 1, true) :=
  (redo_ignores_result_value simSem ⟨[SimCmd.ret (JsVal.vBool false)], -1⟩ 0
    (SimCmd.ret (JsVal.vBool false)) (by decide) (by decide) rfl).1
    (SimCmd.ret (JsVal.vBool false)) 1 (JsVal.vBool false) rfl

/-- C6: `hydrate` replaces the store contents via `restore` without
creating any history entry (the command manager is untouched), notifies
subscribers exactly when `notify` is true, and `notify` defaults to
true. -/
theorem hydrate_out_of_band (fs : Facade) (input : List String) (n : Bool) :
    (Facade.hydrate fs input n).cm = fs.cm ∧
    (Facade.hydrate fs input n).cm.history.length = fs.cm.history.length ∧
    (Facade.hydrate fs input n).store = Store.restore fs.store input ∧
    ((Facade.hydrate fs input n).log =
      if n then fs.log ++ [Store.getAll (Store.restore fs.store input)] else fs.log) ∧
    Facade.hydrate fs input = Facade.hydrate fs input true :=
  ⟨rfl, rfl, rfl, rfl, rfl⟩

/-- C7 counterexample: `createClearAllAction` captures only the count at
construction (`previousState` starts as `null`); executing after the
store has grown and then undoing restores the execute-time contents, not
the construction-time contents. -/
theorem clear_all_captures_at_execute :
    createClearAllAction ["https://a.com"] = FavCmd.clearAll none 1 ∧
    (FavCmd.undoRun
      (FavCmd.run (createClearAllAction ["https://a.com"])
        ["https://a.com", "https://b.com"]).1 []).2.1
      = ["https://a.com", "https://b.com"] ∧
    (FavCmd.undoRun
      (FavCmd.run (createClearAllAction ["https://a.com"])
        ["https://a.com", "https://b.com"]).1 []).2.1
      ≠ ["https://a.com"] := by
  decide

/-- C7 amended: the ClearAll command captures `store.getAll()` as
`previousState` when `execute()` runs (the count alone is captured at
construction for the description), so a later `undo()` restores the
store contents as of the moment `execute()` ran. -/
theorem clear_all_restores_execute_time_state (p : Option (List String)) (n : Nat)
    (w w' : Store) (hnd : w.Nodup) :
    FavCmd.run (FavCmd.clearAll p n) w
      = (FavCmd.clearAll (some w) n, [], JsRes.ok (JsVal.vSet w)) ∧
    FavCmd.undoRun (FavCmd.clearAll (some w) n) w'
      = (FavCmd.clearAll (some w) n, w, JsRes.ok (JsVal.vBool true)) := by
  constructor
  · rw [FavCmd.run]
    simp [Store.clear, Store.getAll]
  · rw [FavCmd.undoRun]
    simp [restore_self hnd]

/-- Witness: clearing a two-element store and undoing restores exactly
the pre-clear contents. -/
theorem clear_all_restores_execute_time_state_witness :
    FavCmd.run (FavCmd.clearAll none 2) ["a", "b"]
      = (FavCmd.clearAll (some ["a", "b"]) 2, [], JsRes.ok (JsVal.vSet ["a", "b"])) ∧
    FavCmd.undoRun (FavCmd.clearAll (some ["a", "b"]) 2) []
      = (FavCmd.clearAll (some ["a", "b"]) 2, ["a", "b"],
        JsRes.ok (JsVal.vBool true)) :=
  clear_all_restores_execute_time_state none 2 ["a", "b"] [] (by decide)

/-- C9: `notifyAll` invokes every currently-registered callback with the
broadcast state, in registration order; a callback that throws is caught
by `notifySubscriber`, so the iteration always completes and later
subscribers are still invoked. -/
theorem observer_isolation {K σ : Type} (sem : ObsSem K σ) (subs : List K) (s : σ) :
    (notifyAllRun sem subs s).1 = subs.map (fun k => (k, s)) ∧
    (notifyAllRun sem subs s).2 = Except.ok () := by
  induction subs with
  | nil => simp [notifyAllRun]
  | cons k rest ih =>
      have hc : ∃ u, notifySubscriberCaught sem k s = Except.ok u := by
        unfold notifySubscriberCaught
        cases sem.call k s <;> exact ⟨_, rfl⟩
      obtain ⟨u, hc⟩ := hc
      rw [notifyAllRun, hc]
      simp [ih.1, ih.2]

/-- C8 counterexample: `normalizeUrl` does default a missing scheme to
`https://`, but the public add path never applies it: adding
"example.com" and then "https://example.com" stores two distinct
favorites, not one. -/
theorem unnormalized_add_two_entries :
    normalizeUrl "example.com" = "https://example.com" ∧
    ((Facade.initial.addFavorite "example.com").1.addFavorite
        "https://example.com").1.store
      = ["example.com", "https://example.com"] ∧
    ((Facade.initial.addFavorite "example.com").1.addFavorite
        "https://example.com").1.store.length ≠ 1 := by
  decide

/-- C8 amended: a favorite's identity on the public add path is exact
equality of the URL string as passed in; no normalization is applied
there, so any two distinct non-empty spellings (in particular a
scheme-less URL and its `https://` form) are stored as two entries. -/
theorem raw_string_identity (u v : String) (hu : u ≠ "") (hv : v ≠ "")
    (huv : u ≠ v) :
    ((Facade.initial.addFavorite u).1.addFavorite v).1.store = [u, v] := by
  have h1 : Facade.initial.addFavorite u
      = (⟨[u], ⟨[FavCmd.addFav u], 0⟩, [[u]]⟩, Except.ok true) := by
    unfold Facade.initial Facade.addFavorite createAddFavoriteAction Facade.executeAndNotify
    simp [hu, Store.has, CM.executeAction, favSem, FavCmd.run, Store.add,
      CM.initial, CM.truncated, JsVal.isStrictFalse, Store.getAll]
  have hvu : ¬(v = u) := fun h => huv h.symm
  have h2 : (Facade.addFavorite ⟨[u], ⟨[FavCmd.addFav u], 0⟩, [[u]]⟩ v)
      = (⟨[u, v], ⟨[FavCmd.addFav u, FavCmd.addFav v], 1⟩, [[u], [u, v]]⟩,
        Except.ok true) := by
    unfold Facade.addFavorite createAddFavoriteAction Facade.executeAndNotify
    simp [hv, hvu, Store.has, CM.executeAction, favSem, FavCmd.run, Store.add,
      CM.truncated, JsVal.isStrictFalse, Store.getAll]
  rw [h1]
  simp only
  rw [h2]

/-- Witness: the two spellings of example.com through the public add
path. -/
theorem raw_string_identity_witness :
    ((Facade.initial.addFavorite "example.com").1.addFavorite
        "https://example.com").1.store
      = ["example.com", "https://example.com"] :=
  raw_string_identity "example.com" "https://example.com"
    (by decide) (by decide) (by decide)
